import Mathlib

/-!
Shallow embedding of `src/src/ParticleSystem.cpp` (Thor particle system).

Times (`sf::Time`) and render-space coordinates are modelled by `ℚ`;
`sf::Time::Zero` is `0` and `asSeconds` is the identity.  The particle
store and the emitter/affector registries are Lean lists, in the same
order as the C++ vectors.  Host-supplied affector callbacks are pure
functions `Particle → ℚ → Particle` (the C++ callback mutates its
particle argument in place); emitter callbacks are modelled as the list
of particle-system API calls they perform (`EmitCmd`), which is the
surface they use through the emission sink / captured system reference.
-/

/-- A 2D vector (`sf::Vector2f`), with rational components. -/
structure Vec2 where
  x : ℚ
  y : ℚ
deriving DecidableEq, Repr

/-- Componentwise vector addition. -/
def Vec2.add (a b : Vec2) : Vec2 := ⟨a.x + b.x, a.y + b.y⟩

/-- Negation of a vector (the unary minus used on the quad offsets). -/
def Vec2.neg (a : Vec2) : Vec2 := ⟨-a.x, -a.y⟩

/-- Scalar multiplication `t * v` (used as `dt.asSeconds() * velocity`). -/
def Vec2.smul (t : ℚ) (a : Vec2) : Vec2 := ⟨t * a.x, t * a.y⟩

/-- An RGBA color (`sf::Color`); the channel representation is opaque to
the particle system, which only copies it around. -/
structure Color where
  r : ℕ
  g : ℕ
  b : ℕ
  a : ℕ
deriving DecidableEq, Repr

/-- An integer rectangle (`sf::IntRect`): the configured texture
sub-rectangle. -/
structure IntRect where
  left : ℤ
  top : ℤ
  width : ℤ
  height : ℤ
deriving DecidableEq, Repr

/-- The referenced texture resource; the particle system only reads its
size (`sf::Texture::getSize`). -/
structure SfTexture where
  width : ℕ
  height : ℕ
deriving DecidableEq, Repr

/-- One particle record (`thor::Particle`), exactly the fields the
`.cpp` reads and writes. -/
structure Particle where
  position : Vec2
  velocity : Vec2
  rotation : ℚ
  rotationSpeed : ℚ
  scale : Vec2
  color : Color
  passedLifetime : ℚ
  totalLifetime : ℚ
deriving DecidableEq, Repr

/-- `ParticleSystem::updateParticle`: integrate lifetime, position and
rotation by the elapsed time `dt`. -/
def updateParticle (p : Particle) (dt : ℚ) : Particle :=
  { p with
    passedLifetime := p.passedLifetime + dt
    position := Vec2.add p.position (Vec2.smul dt p.velocity)
    rotation := p.rotation + dt * p.rotationSpeed }

/-- The type of a host-supplied affector callback
(`std::function<void(Particle&, sf::Time)>`, modelled purely). -/
abbrev AffectorFun : Type := Particle → ℚ → Particle

/-- A registry entry (the shared shape of `ParticleSystem::Affector` and
`ParticleSystem::Emitter`): callback, remaining time, and stable id.
The `id` field models the stable entry identity used by the Connection
machinery (`detail::makeIdConnectionImpl`, declared outside `src/`). -/
structure Entry (F : Type) where
  function : F
  timeUntilRemoval : ℚ
  id : ℕ

/-- One API call an emitter callback may perform on the particle system
during the emission pass: append a particle (the emission sink's only
operation) or register an affector through a captured system reference. -/
inductive EmitCmd where
  | addParticle (p : Particle)
  | addAffector (f : AffectorFun) (timeUntilRemoval : ℚ)

/-- The type of a host-supplied emitter callback
(`std::function<void(EmissionAdder&, sf::Time)>`), modelled as the list
of API calls it performs for a given elapsed time. -/
abbrev EmitterFun : Type := ℚ → List EmitCmd

/-- An affector registry entry. -/
abbrev Affector : Type := Entry AffectorFun

/-- An emitter registry entry. -/
abbrev Emitter : Type := Entry EmitterFun

/-- One vertex of the quad mesh (`sf::Vertex`). -/
structure Vertex where
  position : Vec2
  color : Color
  texCoords : Vec2
deriving DecidableEq, Repr

/-- The state of `thor::ParticleSystem`: particle store, both
registries, texture and texture rectangle, the cached vertex array and
its dirty flag.  `nextId` models the fresh-id counter behind the entry
identity (Connection machinery, declared outside `src/`). -/
structure ParticleSystem where
  mParticles : List Particle
  mAffectors : List Affector
  mEmitters : List Emitter
  mTexture : SfTexture
  mTextureRect : IntRect
  mVertices : List Vertex
  mNeedsVertexUpdate : Bool
  nextId : ℕ

/-- The one-argument constructor
`ParticleSystem(const sf::Texture&)`: default texture rectangle
`(0, 0, width, height)`, empty containers, dirty vertex cache. -/
def mkParticleSystem (texture : SfTexture) : ParticleSystem :=
  { mParticles := []
    mAffectors := []
    mEmitters := []
    mTexture := texture
    mTextureRect := ⟨0, 0, (texture.width : ℤ), (texture.height : ℤ)⟩
    mVertices := []
    mNeedsVertexUpdate := true
    nextId := 0 }

/-- The two-argument constructor
`ParticleSystem(const sf::Texture&, const sf::IntRect&)`. -/
def mkParticleSystemRect (texture : SfTexture) (rect : IntRect) : ParticleSystem :=
  { mkParticleSystem texture with mTextureRect := rect }

/-- `ParticleSystem::addAffector` (two-argument overload): append the
entry and hand back its connection id.  The fresh id comes from the
modelled counter. -/
def ParticleSystem.addAffector (s : ParticleSystem) (f : AffectorFun)
    (timeUntilRemoval : ℚ) : ParticleSystem × ℕ :=
  ({ s with
      mAffectors := s.mAffectors ++ [⟨f, timeUntilRemoval, s.nextId⟩]
      nextId := s.nextId + 1 },
   s.nextId)

/-- `ParticleSystem::addEmitter` (two-argument overload). -/
def ParticleSystem.addEmitter (s : ParticleSystem) (f : EmitterFun)
    (timeUntilRemoval : ℚ) : ParticleSystem × ℕ :=
  ({ s with
      mEmitters := s.mEmitters ++ [⟨f, timeUntilRemoval, s.nextId⟩]
      nextId := s.nextId + 1 },
   s.nextId)

/-- `ParticleSystem::clearAffectors`. -/
def ParticleSystem.clearAffectors (s : ParticleSystem) : ParticleSystem :=
  { s with mAffectors := [] }

/-- `ParticleSystem::clearEmitters`. -/
def ParticleSystem.clearEmitters (s : ParticleSystem) : ParticleSystem :=
  { s with mEmitters := [] }

/-- `ParticleSystem::clearParticles`: clears the particle store only.
Note that the source does NOT touch `mNeedsVertexUpdate` here. -/
def ParticleSystem.clearParticles (s : ParticleSystem) : ParticleSystem :=
  { s with mParticles := [] }

/-- `ParticleSystem::addParticle`: append to the particle store. -/
def ParticleSystem.addParticle (s : ParticleSystem) (p : Particle) : ParticleSystem :=
  { s with mParticles := s.mParticles ++ [p] }

/-- Modelled from the spec: the Connection/`IdConnectionImpl` machinery
(`Thor/Input/Detail/ConnectionImpl.hpp`, not under `src/`) resolves a
handle by stable id and erases that entry from the registry; with no
matching entry it does nothing. -/
def removeById {F : Type} (l : List (Entry F)) (i : ℕ) : List (Entry F) :=
  match l with
  | [] => []
  | e :: rest => if e.id = i then rest else e :: removeById rest i

/-- Modelled from the spec: `Connection::disconnect` for a handle of an
affector entry. -/
def ParticleSystem.disconnectAffector (s : ParticleSystem) (i : ℕ) : ParticleSystem :=
  { s with mAffectors := removeById s.mAffectors i }

/-- Modelled from the spec: `Connection::disconnect` for a handle of an
emitter entry. -/
def ParticleSystem.disconnectEmitter (s : ParticleSystem) (i : ℕ) : ParticleSystem :=
  { s with mEmitters := removeById s.mEmitters i }

/-- `incrementCheckExpiry`: erase the entry if its time has expired,
after decrementing by `dt`; `Time::Zero` means infinite time (never
decremented, never removed).  `none` models erasure. -/
def incrementCheckExpiry {F : Type} (e : Entry F) (dt : ℚ) : Option (Entry F) :=
  if e.timeUntilRemoval ≠ 0 ∧ e.timeUntilRemoval - dt ≤ 0 then none
  else if e.timeUntilRemoval ≠ 0 then some { e with timeUntilRemoval := e.timeUntilRemoval - dt }
  else some e

/-- The erase-or-advance loop over a registry
(`for (itr = begin; itr != end; ) incrementCheckExpiry(ctr, itr, dt)`),
as used for the affector registry at the end of `update` and, for its
expiry effect, interleaved in the emitter loop. -/
def expiryLoop {F : Type} (dt : ℚ) : List (Entry F) → List (Entry F)
  | [] => []
  | e :: rest =>
    match incrementCheckExpiry e dt with
    | none => expiryLoop dt rest
    | some e2 => e2 :: expiryLoop dt rest

/-- Execute one API call performed by an emitter callback. -/
def runEmitCmd (s : ParticleSystem) (c : EmitCmd) : ParticleSystem :=
  match c with
  | .addParticle p => s.addParticle p
  | .addAffector f t => (s.addAffector f t).1

/-- Invoke one emitter callback (`itr->function(*this, dt)`): perform
its API calls in order. -/
def runEmitter (s : ParticleSystem) (e : Emitter) (dt : ℚ) : ParticleSystem :=
  (e.function dt).foldl runEmitCmd s

/-- The emitter loop of `ParticleSystem::update`: for each emitter in
registration order, invoke its callback, then erase-or-advance it
(`incrementCheckExpiry`).  Returns the threaded state (emitters field
stale) together with the surviving emitter list. -/
def emitterLoop (dt : ℚ) : List Emitter → ParticleSystem → ParticleSystem × List Emitter
  | [], s => (s, [])
  | e :: rest, s =>
    let s1 := runEmitter s e dt
    let r := emitterLoop dt rest s1
    match incrementCheckExpiry e dt with
    | none => (r.1, r.2)
    | some e2 => (r.1, e2 :: r.2)

/-- The emission pass of `ParticleSystem::update` (loop over
`mEmitters`). -/
def emissionPass (s : ParticleSystem) (dt : ℚ) : ParticleSystem :=
  let r := emitterLoop dt s.mEmitters s
  { r.1 with mEmitters := r.2 }

/-- Apply every affector callback in registration order to one particle
(the `AURORA_FOREACH` over `mAffectors`). -/
def applyAffectors (affs : List Affector) (p : Particle) (dt : ℚ) : Particle :=
  affs.foldl (fun q a => a.function q dt) p

/-- The particle pass of `ParticleSystem::update`: the reader cursor
visits every stored particle in order; each is integrated
(`updateParticle`), then, if still alive, affected by every registered
affector and copied to the writer cursor.  The returned list is the
compacted prefix left after `mParticles.erase(writer, end)`. -/
def particleLoop (affs : List Affector) (dt : ℚ) : List Particle → List Particle
  | [] => []
  | p :: rest =>
    let q := updateParticle p dt
    if q.passedLifetime < q.totalLifetime then
      applyAffectors affs q dt :: particleLoop affs dt rest
    else
      particleLoop affs dt rest

/-- `ParticleSystem::update`: invalidate the vertex cache, run the
emission pass, run the particle pass against the live affector
registry, then expire affectors. -/
def ParticleSystem.update (s : ParticleSystem) (dt : ℚ) : ParticleSystem :=
  let s0 := { s with mNeedsVertexUpdate := true }
  let s1 := emissionPass s0 dt
  let s2 := { s1 with mParticles := particleLoop s1.mAffectors dt s1.mParticles }
  { s2 with mAffectors := expiryLoop dt s2.mAffectors }

/-- A sequence of per-frame updates with the given elapsed times. -/
def updates (s : ParticleSystem) (dts : List ℚ) : ParticleSystem :=
  dts.foldl ParticleSystem.update s

/-- Modelled from the spec: `thor::perpendicularVector`
(`Thor/Vectors/VectorAlgebra2D.hpp`, not under `src/`) returns the
90°-rotated counterpart `(-y, x)` of a vector. -/
def perpendicularVector (v : Vec2) : Vec2 := ⟨-v.y, v.x⟩

/-- Rotation of a point by an angle given through its cosine/sine pair
`cs`, i.e. the 2×2 block `[c, -s; s, c]` of SFML's rotation matrix. -/
def rotatePoint (cs : ℚ × ℚ) (v : Vec2) : Vec2 :=
  ⟨cs.1 * v.x - cs.2 * v.y, cs.2 * v.x + cs.1 * v.y⟩

/-- Componentwise scaling of a point (SFML's scale matrix applied). -/
def scalePoint (f : Vec2) (v : Vec2) : Vec2 := ⟨f.x * v.x, f.y * v.y⟩

/-- An `sf::Transform`, as the affine map it applies to points. -/
abbrev SfTransform : Type := Vec2 → Vec2

/-- The default-constructed identity `sf::Transform`. -/
def idTransform : SfTransform := fun v => v

/-- `sf::Transform::translate`: combine with a translation on the
right (`*this = *this * translation`), so the translation is applied to
the point first. -/
def SfTransform.translate (t : SfTransform) (p : Vec2) : SfTransform :=
  fun v => t (Vec2.add v p)

/-- `sf::Transform::rotate`: combine with a rotation on the right; the
cosine/sine of the angle (in degrees) are supplied by `trig`, keeping
the embedding exact instead of floating-point. -/
def SfTransform.rotate (t : SfTransform) (trig : ℚ → ℚ × ℚ) (angle : ℚ) : SfTransform :=
  fun v => t (rotatePoint (trig angle) v)

/-- `sf::Transform::scale`: combine with a scaling on the right. -/
def SfTransform.scale (t : SfTransform) (f : Vec2) : SfTransform :=
  fun v => t (scalePoint f v)

/-- `sf::Transform::transformPoint`. -/
def SfTransform.transformPoint (t : SfTransform) (v : Vec2) : Vec2 := t v

/-- `ParticleSystem::computeVertices`, parameterised by the exact
cosine/sine function `trig`: rebuild the vertex array, four vertices
per stored particle; the transform is built by `translate(position)`,
`rotate(rotation)`, `scale(scale)` and applied to the four fixed
position offsets, paired with the four fixed texture-coordinate
corners. -/
def computeVertices (trig : ℚ → ℚ × ℚ) (s : ParticleSystem) : List Vertex :=
  let halfSize : Vec2 := ⟨(s.mTexture.width : ℚ) / 2, (s.mTexture.height : ℚ) / 2⟩
  let positionOffsets : List Vec2 :=
    [Vec2.neg halfSize,
     perpendicularVector halfSize,
     halfSize,
     Vec2.neg (perpendicularVector halfSize)]
  let left : ℚ := (s.mTextureRect.left : ℚ)
  let right : ℚ := ((s.mTextureRect.left + s.mTextureRect.width : ℤ) : ℚ)
  let top : ℚ := (s.mTextureRect.top : ℚ)
  let bottom : ℚ := ((s.mTextureRect.top + s.mTextureRect.height : ℤ) : ℚ)
  let texCoords : List Vec2 :=
    [⟨left, top⟩, ⟨right, top⟩, ⟨right, bottom⟩, ⟨left, bottom⟩]
  (s.mParticles.map (fun p =>
    let transform :=
      SfTransform.scale
        (SfTransform.rotate (SfTransform.translate idTransform p.position) trig p.rotation)
        p.scale
    (positionOffsets.zip texCoords).map
      (fun oc => ⟨transform.transformPoint oc.1, p.color, oc.2⟩))).flatten

/-- The observable result of one `ParticleSystem::draw` call: the state
after the call (the cache fields are `mutable` in the source), the
vertex list and texture handed to `target.draw`, and whether the vertex
cache was rebuilt. -/
structure DrawResult where
  state : ParticleSystem
  drawnVertices : List Vertex
  drawnTexture : SfTexture
  rebuilt : Bool

/-- `ParticleSystem::draw`: rebuild the vertex cache if flagged dirty,
then hand the cached vertices plus the stored texture to the render
target. -/
def ParticleSystem.draw (s : ParticleSystem) (trig : ℚ → ℚ × ℚ) : DrawResult :=
  if s.mNeedsVertexUpdate then
    let vs := computeVertices trig s
    ⟨{ s with mVertices := vs, mNeedsVertexUpdate := false }, vs, s.mTexture, true⟩
  else
    ⟨s, s.mVertices, s.mTexture, false⟩

/-!
Characterization definitions: closed forms for what one `update` call
does, derived from the loops above and used to state the claims.
-/

/-- The particle appended by one emitter API call, if any. -/
def particleOfCmd : EmitCmd → Option Particle
  | .addParticle p => some p
  | .addAffector _ _ => none

/-- The affector callback/duration registered by one emitter API call,
if any. -/
def affectorSpecOfCmd : EmitCmd → Option (AffectorFun × ℚ)
  | .addParticle _ => none
  | .addAffector f t => some (f, t)

/-- All particles appended by the given emitters (in registration
order) when invoked with elapsed time `dt`. -/
def emittedBy (es : List Emitter) (dt : ℚ) : List Particle :=
  (es.map (fun e => (e.function dt).filterMap particleOfCmd)).flatten

/-- All affector callback/duration pairs registered by the given
emitters (in registration order) when invoked with elapsed time `dt`. -/
def affectorSpecsBy (es : List Emitter) (dt : ℚ) : List (AffectorFun × ℚ) :=
  (es.map (fun e => (e.function dt).filterMap affectorSpecOfCmd)).flatten

/-- Turn registered callback/duration pairs into registry entries with
consecutive fresh ids starting at `n`. -/
def assignIds (n : ℕ) : List (AffectorFun × ℚ) → List Affector
  | [] => []
  | x :: xs => ⟨x.1, x.2, n⟩ :: assignIds (n + 1) xs

/-- The affector registry as the particle pass of `update s dt` reads
it: the entries present at the call plus those registered during this
same update's emission pass, in registration order. -/
def liveAffectors (s : ParticleSystem) (dt : ℚ) : List Affector :=
  s.mAffectors ++ assignIds s.nextId (affectorSpecsBy s.mEmitters dt)

/-- The particle store as the particle pass of `update s dt` reads it:
the particles present at the call plus those emitted during this same
update's emission pass. -/
def preStore (s : ParticleSystem) (dt : ℚ) : List Particle :=
  s.mParticles ++ emittedBy s.mEmitters dt

/-- The per-particle pipeline of the particle pass: integrate, then
either affect-and-retain (alive) or discard (dead). -/
def processParticle (affs : List Affector) (dt : ℚ) (p : Particle) : Option Particle :=
  let q := updateParticle p dt
  if q.passedLifetime < q.totalLifetime then some (applyAffectors affs q dt) else none

/-- Iterated expiry of a single registry entry across a sequence of
updates; `none` means the entry was erased at some update. -/
def entryIter {F : Type} (e : Entry F) (dts : List ℚ) : Option (Entry F) :=
  dts.foldl (fun o d => o.bind (fun x => incrementCheckExpiry x d)) (some e)

/-!
Lemmas about the emission pass and the particle pass.
-/

theorem assignIds_append (n : ℕ) (xs ys : List (AffectorFun × ℚ)) :
    assignIds n (xs ++ ys) = assignIds n xs ++ assignIds (n + xs.length) ys := by
  induction xs generalizing n with
  | nil => simp [assignIds]
  | cons x xs ih =>
      simp only [List.cons_append, assignIds, List.length_cons, List.append_eq, ih]
      have h : n + (xs.length + 1) = n + 1 + xs.length := by omega
      rw [h]

theorem cmdFold_eq (cmds : List EmitCmd) (s : ParticleSystem) :
    cmds.foldl runEmitCmd s =
      { s with
        mParticles := s.mParticles ++ cmds.filterMap particleOfCmd
        mAffectors := s.mAffectors ++ assignIds s.nextId (cmds.filterMap affectorSpecOfCmd)
        nextId := s.nextId + (cmds.filterMap affectorSpecOfCmd).length } := by
  induction cmds generalizing s with
  | nil => simp [assignIds]
  | cons c cmds ih =>
      cases c with
      | addParticle p =>
          simp only [List.foldl_cons, runEmitCmd, ParticleSystem.addParticle, ih,
            List.filterMap_cons, particleOfCmd, affectorSpecOfCmd, List.append_assoc,
            List.singleton_append]
      | addAffector f t =>
          simp only [List.foldl_cons, runEmitCmd, ParticleSystem.addAffector, ih,
            List.filterMap_cons, particleOfCmd, affectorSpecOfCmd, List.append_assoc,
            List.singleton_append, assignIds, List.length_cons]
          simp [Nat.add_assoc, Nat.add_comm, Nat.add_left_comm]

theorem runEmitter_eq (s : ParticleSystem) (e : Emitter) (dt : ℚ) :
    runEmitter s e dt =
      { s with
        mParticles := s.mParticles ++ (e.function dt).filterMap particleOfCmd
        mAffectors := s.mAffectors ++ assignIds s.nextId ((e.function dt).filterMap affectorSpecOfCmd)
        nextId := s.nextId + ((e.function dt).filterMap affectorSpecOfCmd).length } :=
  cmdFold_eq (e.function dt) s

theorem emitterLoop_eq (dt : ℚ) (es : List Emitter) (s : ParticleSystem) :
    emitterLoop dt es s =
      ({ s with
          mParticles := s.mParticles ++ emittedBy es dt
          mAffectors := s.mAffectors ++ assignIds s.nextId (affectorSpecsBy es dt)
          nextId := s.nextId + (affectorSpecsBy es dt).length },
        expiryLoop dt es) := by
  induction es generalizing s with
  | nil => simp [emitterLoop, expiryLoop, emittedBy, affectorSpecsBy, assignIds]
  | cons e es ih =>
      have hem : emittedBy (e :: es) dt
          = (e.function dt).filterMap particleOfCmd ++ emittedBy es dt := by
        simp [emittedBy]
      have haf : affectorSpecsBy (e :: es) dt
          = (e.function dt).filterMap affectorSpecOfCmd ++ affectorSpecsBy es dt := by
        simp [affectorSpecsBy]
      simp only [emitterLoop, runEmitter_eq, ih, expiryLoop, hem, haf, assignIds_append,
        List.append_assoc, List.length_append]
      cases h : incrementCheckExpiry e dt <;>
        simp [h, Nat.add_assoc]

theorem emissionPass_eq (s : ParticleSystem) (dt : ℚ) :
    emissionPass s dt =
      { s with
        mParticles := s.mParticles ++ emittedBy s.mEmitters dt
        mAffectors := liveAffectors s dt
        mEmitters := expiryLoop dt s.mEmitters
        nextId := s.nextId + (affectorSpecsBy s.mEmitters dt).length } := by
  simp [emissionPass, emitterLoop_eq, liveAffectors]

theorem update_eq (s : ParticleSystem) (dt : ℚ) :
    s.update dt =
      { s with
        mNeedsVertexUpdate := true
        mParticles := particleLoop (liveAffectors s dt) dt (preStore s dt)
        mAffectors := expiryLoop dt (liveAffectors s dt)
        mEmitters := expiryLoop dt s.mEmitters
        nextId := s.nextId + (affectorSpecsBy s.mEmitters dt).length } := by
  simp only [ParticleSystem.update, emissionPass_eq, liveAffectors, preStore]

theorem particleLoop_append (affs : List Affector) (dt : ℚ) (l1 l2 : List Particle) :
    particleLoop affs dt (l1 ++ l2) = particleLoop affs dt l1 ++ particleLoop affs dt l2 := by
  induction l1 with
  | nil => simp [particleLoop]
  | cons p l1 ih =>
      simp only [List.cons_append, particleLoop, ih]
      split <;> simp [ih]

theorem particleLoop_eq_filter_map (affs : List Affector) (dt : ℚ) (ps : List Particle) :
    particleLoop affs dt ps =
      (ps.filter (fun p =>
        decide ((updateParticle p dt).passedLifetime < (updateParticle p dt).totalLifetime))).map
        (fun p => applyAffectors affs (updateParticle p dt) dt) := by
  induction ps with
  | nil => simp [particleLoop]
  | cons p ps ih =>
      simp only [particleLoop, List.filter_cons]
      by_cases h : (updateParticle p dt).passedLifetime < (updateParticle p dt).totalLifetime
      · simp [h, ih]
      · simp [h, ih]

theorem particleLoop_eq_filterMap (affs : List Affector) (dt : ℚ) (ps : List Particle) :
    particleLoop affs dt ps = ps.filterMap (processParticle affs dt) := by
  induction ps with
  | nil => simp [particleLoop]
  | cons p ps ih =>
      simp only [particleLoop, List.filterMap_cons, processParticle]
      by_cases h : (updateParticle p dt).passedLifetime < (updateParticle p dt).totalLifetime
      · simp [h, ih]
      · simp [h, ih]

theorem expiryLoop_append {F : Type} (dt : ℚ) (l1 l2 : List (Entry F)) :
    expiryLoop dt (l1 ++ l2) = expiryLoop dt l1 ++ expiryLoop dt l2 := by
  induction l1 with
  | nil => simp [expiryLoop]
  | cons e l1 ih =>
      simp only [List.cons_append, expiryLoop, ih]
      cases incrementCheckExpiry e dt <;> simp [ih]

theorem expiryLoop_singleton {F : Type} (dt : ℚ) (e : Entry F) :
    expiryLoop dt [e] = (incrementCheckExpiry e dt).toList := by
  simp only [expiryLoop]
  cases incrementCheckExpiry e dt <;> simp

theorem incrementCheckExpiry_zero {F : Type} (e : Entry F) (dt : ℚ)
    (h : e.timeUntilRemoval = 0) : incrementCheckExpiry e dt = some e := by
  simp [incrementCheckExpiry, h]

theorem incrementCheckExpiry_erase {F : Type} (e : Entry F) (dt : ℚ)
    (h : e.timeUntilRemoval ≠ 0) (hle : e.timeUntilRemoval - dt ≤ 0) :
    incrementCheckExpiry e dt = none := by
  simp [incrementCheckExpiry, h, hle]

theorem incrementCheckExpiry_keep {F : Type} (e : Entry F) (dt : ℚ)
    (h : e.timeUntilRemoval ≠ 0) (hgt : 0 < e.timeUntilRemoval - dt) :
    incrementCheckExpiry e dt = some { e with timeUntilRemoval := e.timeUntilRemoval - dt } := by
  have : ¬ e.timeUntilRemoval - dt ≤ 0 := not_le.mpr hgt
  simp [incrementCheckExpiry, h, this]

theorem foldl_bind_none {F : Type} (dts : List ℚ) :
    dts.foldl (fun o d => o.bind (fun x => incrementCheckExpiry x d)) (none : Option (Entry F))
      = none := by
  induction dts with
  | nil => rfl
  | cons d dts ih => simp [List.foldl_cons, ih]

theorem entryIter_nil {F : Type} (e : Entry F) : entryIter e [] = some e := rfl

theorem entryIter_cons {F : Type} (e : Entry F) (d : ℚ) (dts : List ℚ) :
    entryIter e (d :: dts) =
      match incrementCheckExpiry e d with
      | none => none
      | some e2 => entryIter e2 dts := by
  unfold entryIter
  simp only [List.foldl_cons, Option.bind_some]
  cases h : incrementCheckExpiry e d
  · simp [h, foldl_bind_none]
  · simp [h]

theorem entryIter_zero {F : Type} (e : Entry F) (dts : List ℚ)
    (h : e.timeUntilRemoval = 0) : entryIter e dts = some e := by
  induction dts with
  | nil => rfl
  | cons d dts ih => rw [entryIter_cons, incrementCheckExpiry_zero e d h]; exact ih

theorem entryIter_pos {F : Type} (fn : F) (i : ℕ) (T : ℚ) (dts : List ℚ)
    (hT : 0 < T) (h : ∀ d ∈ dts, 0 ≤ d) :
    entryIter (Entry.mk fn T i) dts =
      if T ≤ dts.sum then none else some (Entry.mk fn (T - dts.sum) i) := by
  induction dts generalizing T with
  | nil =>
      simp only [List.sum_nil, entryIter_nil]
      rw [if_neg (not_le.mpr hT)]
      simp
  | cons d dts ih =>
      have hd0 : 0 ≤ d := h d (List.mem_cons_self d dts)
      have htail : ∀ x ∈ dts, 0 ≤ x := fun x hx => h x (List.mem_cons_of_mem d hx)
      have hsum : 0 ≤ dts.sum := List.sum_nonneg htail
      rw [entryIter_cons]
      by_cases hle : T - d ≤ 0
      · rw [incrementCheckExpiry_erase _ _ (ne_of_gt hT) hle]
        have : T ≤ (d :: dts).sum := by
          simp only [List.sum_cons]
          linarith
        rw [if_pos this]
      · have hgt : 0 < T - d := lt_of_not_le hle
        rw [incrementCheckExpiry_keep _ _ (ne_of_gt hT) hgt]
        simp only []
        rw [ih (T - d) hgt htail]
        simp only [List.sum_cons]
        by_cases hc : T - d ≤ dts.sum
        · rw [if_pos hc, if_pos (by linarith)]
        · rw [if_neg hc, if_neg (by intro hx; exact hc (by linarith))]
          have : T - d - dts.sum = T - (d + dts.sum) := by ring
          rw [this]

theorem updates_nil (s : ParticleSystem) : updates s [] = s := rfl

theorem updates_cons (s : ParticleSystem) (d : ℚ) (dts : List ℚ) :
    updates s (d :: dts) = updates (s.update d) dts := rfl

/-- Iterated registry-level expiry: the effect of a sequence of
updates on a registry segment whose entries were present at the start
(newly registered entries are only ever appended after such a
segment). -/
def registryIter {F : Type} (l : List (Entry F)) (dts : List ℚ) : List (Entry F) :=
  dts.foldl (fun acc d => expiryLoop d acc) l

/-- Well-formedness of the modelled id state: every registered entry's
id is below the fresh-id counter, and ids are unique within each
registry.  It holds for a freshly constructed system and is preserved
by registration and by update, so it holds in every API-reachable
state. -/
def idsWellFormed (s : ParticleSystem) : Prop :=
  (∀ b ∈ s.mAffectors, b.id < s.nextId)
  ∧ (∀ b ∈ s.mEmitters, b.id < s.nextId)
  ∧ (s.mAffectors.map Entry.id).Nodup
  ∧ (s.mEmitters.map Entry.id).Nodup

theorem registryIter_nil_dts {F : Type} (l : List (Entry F)) : registryIter l [] = l := rfl

theorem registryIter_cons_dts {F : Type} (l : List (Entry F)) (d : ℚ) (dts : List ℚ) :
    registryIter l (d :: dts) = registryIter (expiryLoop d l) dts := rfl

theorem registryIter_nil {F : Type} (dts : List ℚ) :
    registryIter ([] : List (Entry F)) dts = [] := by
  induction dts with
  | nil => rfl
  | cons d dts ih => exact ih

theorem registryIter_append {F : Type} (dts : List ℚ) :
    ∀ l1 l2 : List (Entry F),
      registryIter (l1 ++ l2) dts = registryIter l1 dts ++ registryIter l2 dts := by
  induction dts with
  | nil => intro l1 l2; rfl
  | cons d dts ih =>
      intro l1 l2
      rw [registryIter_cons_dts, expiryLoop_append, ih, registryIter_cons_dts,
        registryIter_cons_dts]

theorem registryIter_singleton {F : Type} (dts : List ℚ) :
    ∀ e : Entry F, registryIter [e] dts = (entryIter e dts).toList := by
  induction dts with
  | nil => intro e; rfl
  | cons d dts ih =>
      intro e
      rw [registryIter_cons_dts, expiryLoop_singleton, entryIter_cons]
      cases h : incrementCheckExpiry e d with
      | none => simp [registryIter_nil]
      | some e2 => exact ih e2

theorem updates_mEmitters_eq (dts : List ℚ) :
    ∀ s : ParticleSystem, (updates s dts).mEmitters = registryIter s.mEmitters dts := by
  induction dts with
  | nil => intro s; rfl
  | cons d dts ih =>
      intro s
      rw [updates_cons, ih, registryIter_cons_dts]
      congr 1
      rw [update_eq]

theorem update_mEmitters_one (s : ParticleSystem) (d : ℚ) :
    (s.update d).mEmitters = expiryLoop d s.mEmitters := by
  rw [update_eq]

theorem update_mAffectors_one (s : ParticleSystem) (d : ℚ) :
    (s.update d).mAffectors = expiryLoop d (liveAffectors s d) := by
  rw [update_eq]

theorem update_nextId_eq (s : ParticleSystem) (d : ℚ) :
    (s.update d).nextId = s.nextId + (affectorSpecsBy s.mEmitters d).length := by
  rw [update_eq]

theorem incrementCheckExpiry_some_id {F : Type} (e e2 : Entry F) (d : ℚ)
    (h : incrementCheckExpiry e d = some e2) : e2.id = e.id := by
  unfold incrementCheckExpiry at h
  split_ifs at h
  all_goals (cases h; rfl)

theorem expiryLoop_ids_sublist {F : Type} (d : ℚ) (l : List (Entry F)) :
    List.Sublist ((expiryLoop d l).map Entry.id) (l.map Entry.id) := by
  induction l with
  | nil => simp [expiryLoop]
  | cons e l ih =>
      simp only [expiryLoop]
      cases h : incrementCheckExpiry e d with
      | none =>
          simp only [List.map_cons]
          exact List.Sublist.cons _ ih
      | some e2 =>
          simp only [List.map_cons]
          rw [incrementCheckExpiry_some_id e e2 d h]
          exact List.Sublist.cons₂ _ ih

theorem registryIter_ids_sublist {F : Type} (dts : List ℚ) :
    ∀ l : List (Entry F),
      List.Sublist ((registryIter l dts).map Entry.id) (l.map Entry.id) := by
  induction dts with
  | nil => intro l; exact List.Sublist.refl _
  | cons d dts ih =>
      intro l
      rw [registryIter_cons_dts]
      exact (ih (expiryLoop d l)).trans (expiryLoop_ids_sublist d l)

theorem assignIds_id_bound (xs : List (AffectorFun × ℚ)) :
    ∀ (n : ℕ) (b : Affector), b ∈ assignIds n xs → n ≤ b.id ∧ b.id < n + xs.length := by
  induction xs with
  | nil => intro n b hb; simp [assignIds] at hb
  | cons x xs ih =>
      intro n b hb
      simp only [assignIds, List.mem_cons] at hb
      cases hb with
      | inl h =>
          subst h
          refine ⟨le_refl _, ?_⟩
          show n < n + (xs.length + 1)
          omega
      | inr h =>
          have hb2 := ih (n + 1) b h
          simp only [List.length_cons]
          omega

theorem assignIds_ids_nodup (xs : List (AffectorFun × ℚ)) :
    ∀ n : ℕ, ((assignIds n xs).map Entry.id).Nodup := by
  induction xs with
  | nil => intro n; simp [assignIds]
  | cons x xs ih =>
      intro n
      simp only [assignIds, List.map_cons, List.nodup_cons]
      refine ⟨?_, ih (n + 1)⟩
      intro hmem
      rcases List.mem_map.mp hmem with ⟨b, hb, hid⟩
      have hb2 := (assignIds_id_bound xs (n + 1) b hb).1
      omega

theorem update_mAffectors_ids (s : ParticleSystem) (d : ℚ) :
    ∀ b ∈ (s.update d).mAffectors,
      b.id ∈ s.mAffectors.map Entry.id
      ∨ (s.nextId ≤ b.id ∧ b.id < s.nextId + (affectorSpecsBy s.mEmitters d).length) := by
  intro b hb
  rw [update_mAffectors_one] at hb
  have h2 : b.id ∈ (expiryLoop d (liveAffectors s d)).map Entry.id :=
    List.mem_map_of_mem _ hb
  have h3 : b.id ∈ (liveAffectors s d).map Entry.id :=
    (expiryLoop_ids_sublist d _).subset h2
  rw [liveAffectors, List.map_append] at h3
  rcases List.mem_append.mp h3 with h4 | h4
  · exact Or.inl h4
  · rcases List.mem_map.mp h4 with ⟨c, hc, hcid⟩
    have hb2 := assignIds_id_bound _ _ c hc
    rw [hcid] at hb2
    exact Or.inr hb2

theorem idsWellFormed_update (s : ParticleSystem) (d : ℚ) (h : idsWellFormed s) :
    idsWellFormed (s.update d) := by
  obtain ⟨ha, he, hna, hne⟩ := h
  refine ⟨?_, ?_, ?_, ?_⟩
  · intro b hb
    rw [update_nextId_eq]
    rcases update_mAffectors_ids s d b hb with h4 | h4
    · rcases List.mem_map.mp h4 with ⟨c, hc, hcid⟩
      have hc2 := ha c hc
      omega
    · omega
  · intro b hb
    rw [update_nextId_eq]
    rw [update_mEmitters_one] at hb
    have h2 := (expiryLoop_ids_sublist d s.mEmitters).subset (List.mem_map_of_mem Entry.id hb)
    rcases List.mem_map.mp h2 with ⟨c, hc, hcid⟩
    have hc2 := he c hc
    omega
  · rw [update_mAffectors_one]
    apply List.Nodup.sublist (expiryLoop_ids_sublist d _)
    rw [liveAffectors, List.map_append]
    apply List.Nodup.append hna (assignIds_ids_nodup _ _)
    intro x hx1 hx2
    rcases List.mem_map.mp hx1 with ⟨c, hc, hcid⟩
    rcases List.mem_map.mp hx2 with ⟨c2, hc2, hcid2⟩
    have b1 := ha c hc
    have b2 := (assignIds_id_bound _ _ c2 hc2).1
    omega
  · rw [update_mEmitters_one]
    exact List.Nodup.sublist (expiryLoop_ids_sublist d _) hne

theorem nodup_split_ids {F : Type} (pre post : List (Entry F)) (a : Entry F)
    (h : ((pre ++ [a] ++ post).map Entry.id).Nodup) :
    (∀ b ∈ pre, b.id ≠ a.id) ∧ (∀ b ∈ post, b.id ≠ a.id) := by
  rw [List.append_assoc, List.map_append, List.nodup_append] at h
  obtain ⟨h1, h2, hdisj⟩ := h
  constructor
  · intro b hb heq
    apply hdisj (List.mem_map_of_mem Entry.id hb)
    rw [heq]
    simp
  · intro b hb heq
    rw [List.singleton_append, List.map_cons, List.nodup_cons] at h2
    apply h2.1
    rw [← heq]
    exact List.mem_map_of_mem Entry.id hb

theorem updates_affector_id_absent (dts : List ℚ) :
    ∀ (s : ParticleSystem) (i : ℕ), i < s.nextId →
      (∀ b ∈ s.mAffectors, b.id ≠ i) →
      ∀ b ∈ (updates s dts).mAffectors, b.id ≠ i := by
  induction dts with
  | nil => intro s i _ habs b hb; exact habs b hb
  | cons d dts ih =>
      intro s i hlt habs
      rw [updates_cons]
      apply ih (s.update d) i
      · rw [update_nextId_eq]
        omega
      · intro b hb
        rcases update_mAffectors_ids s d b hb with h4 | h4
        · rcases List.mem_map.mp h4 with ⟨c, hc, hcid⟩
          rw [← hcid]
          exact habs c hc
        · omega

theorem updates_affector_expired_absent (dts : List ℚ) :
    ∀ (s : ParticleSystem) (pre post : List Affector) (a : Affector),
      idsWellFormed s → s.mAffectors = pre ++ [a] ++ post → entryIter a dts = none →
      ∀ b ∈ (updates s dts).mAffectors, b.id ≠ a.id := by
  induction dts with
  | nil =>
      intro s pre post a _ _ hn
      exact absurd hn (by simp [entryIter_nil])
  | cons d dts ih =>
      intro s pre post a hwf hs hn
      rw [updates_cons]
      rw [entryIter_cons] at hn
      have hup : (s.update d).mAffectors
          = expiryLoop d pre ++ expiryLoop d [a]
            ++ expiryLoop d (post ++ assignIds s.nextId (affectorSpecsBy s.mEmitters d)) := by
        rw [update_mAffectors_one]
        simp only [liveAffectors, hs]
        rw [List.append_assoc, List.append_assoc, ← List.append_assoc]
        rw [expiryLoop_append, expiryLoop_append]
      cases h : incrementCheckExpiry a d with
      | some a2 =>
          rw [h] at hn
          have hn2 : entryIter a2 dts = none := hn
          have hid := incrementCheckExpiry_some_id a a2 d h
          have hs2 : (s.update d).mAffectors
              = expiryLoop d pre ++ [a2]
                ++ expiryLoop d (post ++ assignIds s.nextId (affectorSpecsBy s.mEmitters d)) := by
            rw [hup, expiryLoop_singleton, h]
            rfl
          intro b hb
          rw [← hid]
          exact ih (s.update d) _ _ a2 (idsWellFormed_update s d hwf) hs2 hn2 b hb
      | none =>
          obtain ⟨ha, _, hna, _⟩ := hwf
          have haidlt : a.id < s.nextId := ha a (by rw [hs]; simp)
          apply updates_affector_id_absent dts (s.update d) a.id
          · rw [update_nextId_eq]
            omega
          · intro b hb
            rw [hup, expiryLoop_singleton, h] at hb
            simp only [Option.toList, List.append_nil, List.mem_append] at hb
            rw [hs] at hna
            have hnd := nodup_split_ids pre post a hna
            rcases hb with hb1 | hb2
            · have h5 : b.id ∈ pre.map Entry.id :=
                (expiryLoop_ids_sublist d pre).subset (List.mem_map_of_mem Entry.id hb1)
              rcases List.mem_map.mp h5 with ⟨c, hc, hcid⟩
              rw [← hcid]
              exact hnd.1 c hc
            · have h5 : b.id ∈ (post ++ assignIds s.nextId (affectorSpecsBy s.mEmitters d)).map Entry.id :=
                (expiryLoop_ids_sublist d _).subset (List.mem_map_of_mem Entry.id hb2)
              rw [List.map_append] at h5
              rcases List.mem_append.mp h5 with h6 | h6
              · rcases List.mem_map.mp h6 with ⟨c, hc, hcid⟩
                rw [← hcid]
                exact hnd.2 c hc
              · rcases List.mem_map.mp h6 with ⟨c, hc, hcid⟩
                have hb3 := (assignIds_id_bound _ _ c hc).1
                omega

theorem updates_emitter_expired_absent (dts : List ℚ) (s : ParticleSystem)
    (pre post : List Emitter) (e : Emitter) (hwf : idsWellFormed s)
    (hs : s.mEmitters = pre ++ [e] ++ post) (hn : entryIter e dts = none) :
    ∀ b ∈ (updates s dts).mEmitters, b.id ≠ e.id := by
  obtain ⟨_, _, _, hne⟩ := hwf
  rw [hs] at hne
  have hnd := nodup_split_ids pre post e hne
  intro b hb
  rw [updates_mEmitters_eq dts s, hs, registryIter_append, registryIter_append,
    registryIter_singleton, hn] at hb
  simp only [Option.toList, List.append_nil, List.mem_append] at hb
  rcases hb with hb1 | hb2
  · have h5 : b.id ∈ pre.map Entry.id :=
      (registryIter_ids_sublist dts pre).subset (List.mem_map_of_mem Entry.id hb1)
    rcases List.mem_map.mp h5 with ⟨c, hc, hcid⟩
    rw [← hcid]
    exact hnd.1 c hc
  · have h5 : b.id ∈ post.map Entry.id :=
      (registryIter_ids_sublist dts post).subset (List.mem_map_of_mem Entry.id hb2)
    rcases List.mem_map.mp h5 with ⟨c, hc, hcid⟩
    rw [← hcid]
    exact hnd.2 c hc

theorem updates_mAffectors_prefix (dts : List ℚ) :
    ∀ (s : ParticleSystem) (pre rest : List Affector), s.mAffectors = pre ++ rest →
      ∃ B, (updates s dts).mAffectors = registryIter pre dts ++ B := by
  induction dts with
  | nil =>
      intro s pre rest hs
      exact ⟨rest, by rw [updates_nil, hs, registryIter_nil_dts]⟩
  | cons d dts ih =>
      intro s pre rest hs
      rw [updates_cons, registryIter_cons_dts]
      apply ih (s.update d) (expiryLoop d pre)
        (expiryLoop d (rest ++ assignIds s.nextId (affectorSpecsBy s.mEmitters d)))
      rw [update_mAffectors_one]
      simp only [liveAffectors, hs]
      rw [List.append_assoc, expiryLoop_append]

theorem updates_mAffectors_tracked (dts : List ℚ) :
    ∀ (s : ParticleSystem) (pre post : List Affector) (a : Affector),
      s.mAffectors = pre ++ [a] ++ post →
      ∃ B, (updates s dts).mAffectors
        = registryIter pre dts ++ (entryIter a dts).toList ++ B := by
  induction dts with
  | nil =>
      intro s pre post a hs
      refine ⟨post, ?_⟩
      rw [updates_nil, hs, registryIter_nil_dts, entryIter_nil]
      rfl
  | cons d dts ih =>
      intro s pre post a hs
      rw [updates_cons, registryIter_cons_dts, entryIter_cons]
      have hup : (s.update d).mAffectors
          = expiryLoop d pre ++ expiryLoop d [a]
            ++ expiryLoop d (post ++ assignIds s.nextId (affectorSpecsBy s.mEmitters d)) := by
        rw [update_mAffectors_one]
        simp only [liveAffectors, hs]
        rw [List.append_assoc, List.append_assoc, ← List.append_assoc]
        rw [expiryLoop_append, expiryLoop_append]
      cases h : incrementCheckExpiry a d with
      | none =>
          have hs2 : (s.update d).mAffectors
              = expiryLoop d pre
                ++ expiryLoop d (post ++ assignIds s.nextId (affectorSpecsBy s.mEmitters d)) := by
            rw [hup, expiryLoop_singleton, h]
            simp
          obtain ⟨B, hB⟩ := updates_mAffectors_prefix dts (s.update d) (expiryLoop d pre) _ hs2
          refine ⟨B, ?_⟩
          rw [hB]
          simp
      | some a2 =>
          have hs2 : (s.update d).mAffectors
              = expiryLoop d pre ++ [a2]
                ++ expiryLoop d (post ++ assignIds s.nextId (affectorSpecsBy s.mEmitters d)) := by
            rw [hup, expiryLoop_singleton, h]
            rfl
          exact ih (s.update d) (expiryLoop d pre) _ a2 hs2

theorem idsWellFormed_mkParticleSystem (t : SfTexture) :
    idsWellFormed (mkParticleSystem t) := by
  simp [idsWellFormed, mkParticleSystem]

theorem idsWellFormed_addAffector (s : ParticleSystem) (f : AffectorFun) (t : ℚ)
    (h : idsWellFormed s) : idsWellFormed (s.addAffector f t).1 := by
  obtain ⟨ha, he, hna, hne⟩ := h
  refine ⟨?_, ?_, ?_, ?_⟩
  · intro b hb
    simp only [ParticleSystem.addAffector] at hb ⊢
    rcases List.mem_append.mp hb with h1 | h1
    · have hb2 := ha b h1
      omega
    · have h2 := List.mem_singleton.mp h1
      subst h2
      show s.nextId < s.nextId + 1
      omega
  · intro b hb
    simp only [ParticleSystem.addAffector] at hb ⊢
    have hb2 := he b hb
    omega
  · simp only [ParticleSystem.addAffector, List.map_append]
    apply List.Nodup.append hna (by simp)
    intro x hx1 hx2
    rcases List.mem_map.mp hx1 with ⟨c, hc, hcid⟩
    simp at hx2
    have hb2 := ha c hc
    omega
  · simp only [ParticleSystem.addAffector]
    exact hne

theorem idsWellFormed_addEmitter (s : ParticleSystem) (f : EmitterFun) (t : ℚ)
    (h : idsWellFormed s) : idsWellFormed (s.addEmitter f t).1 := by
  obtain ⟨ha, he, hna, hne⟩ := h
  refine ⟨?_, ?_, ?_, ?_⟩
  · intro b hb
    simp only [ParticleSystem.addEmitter] at hb ⊢
    have hb2 := ha b hb
    omega
  · intro b hb
    simp only [ParticleSystem.addEmitter] at hb ⊢
    rcases List.mem_append.mp hb with h1 | h1
    · have hb2 := he b h1
      omega
    · have h2 := List.mem_singleton.mp h1
      subst h2
      show s.nextId < s.nextId + 1
      omega
  · simp only [ParticleSystem.addEmitter]
    exact hna
  · simp only [ParticleSystem.addEmitter, List.map_append]
    apply List.Nodup.append hne (by simp)
    intro x hx1 hx2
    rcases List.mem_map.mp hx1 with ⟨c, hc, hcid⟩
    simp at hx2
    have hb2 := he c hc
    omega

/-!
Concrete fixtures used by witnesses and counterexamples.
-/

/-- A live test particle: at the origin, moving right, 10s lifetime. -/
def P0 : Particle :=
  { position := ⟨0, 0⟩, velocity := ⟨1, 0⟩, rotation := 0, rotationSpeed := 0,
    scale := ⟨1, 1⟩, color := ⟨255, 0, 0, 255⟩, passedLifetime := 0, totalLifetime := 10 }

/-- An emitter callback that appends one copy of `P0` per invocation. -/
def E0 : EmitterFun := fun _ => [EmitCmd.addParticle P0]

/-- A system with a single never-expiring emitter `E0`. -/
def S0 : ParticleSystem := ((mkParticleSystem ⟨2, 2⟩).addEmitter E0 0).1

/-- A trivial cosine/sine table (angle ignored; rotation by 0°). -/
def trig0 : ℚ → ℚ × ℚ := fun _ => (1, 0)

/-- A cosine/sine table exact at 90°. -/
def trig90 : ℚ → ℚ × ℚ := fun a => if a = 90 then (0, 1) else (1, 0)

/-!
Claim C1.
-/

/-- Claim C1, refuted at a concrete input: a particle appended by an
emitter callback during the emission pass of `update dt` DOES receive
that same update's integration step — after `S0.update 1` the store
holds `updateParticle P0 1` (position advanced to `(1,0)`,
`passedLifetime` advanced to `1`), not the freshly appended `P0`. -/
theorem thorC1_counterexample :
    (S0.update 1).mParticles = [updateParticle P0 1]
    ∧ updateParticle P0 1 ≠ P0
    ∧ (S0.update 1).mParticles ≠ [P0] := by
  norm_num [update_eq, liveAffectors, preStore, emittedBy, affectorSpecsBy, S0, E0,
    mkParticleSystem, ParticleSystem.addEmitter, particleOfCmd, affectorSpecOfCmd,
    assignIds, particleLoop, applyAffectors, updateParticle, P0]

/-- Claim C1 as amended: for every update call, the particles appended
by emitter callbacks during that update's emission pass go through that
same update's particle pass — they are integrated by this frame's
elapsed time, culled, and affected exactly like pre-existing particles
(appended at the end of the store). -/
theorem thorC1_emitted_particles_integrated_same_update
    (s : ParticleSystem) (dt : ℚ) :
    (s.update dt).mParticles
      = particleLoop (liveAffectors s dt) dt s.mParticles
        ++ particleLoop (liveAffectors s dt) dt (emittedBy s.mEmitters dt) := by
  rw [update_eq]
  simp only [preStore, particleLoop_append]

/-!
Claim C2.
-/

/-- Claim C2: the affector registry is read live during the particle
pass, not snapshotted at frame start — every particle that survives
this update's culling is transformed by `applyAffectors` over
`liveAffectors s dt`, which is the affector registry at the call plus
every affector registered from within an emitter callback during this
same update's emission pass, appended in registration order; moreover
the newly registered affectors are applied after the pre-existing ones
(registration order). -/
theorem thorC2_live_affector_registry_applied_to_survivors
    (s : ParticleSystem) (dt : ℚ) :
    liveAffectors s dt
      = s.mAffectors ++ assignIds s.nextId (affectorSpecsBy s.mEmitters dt)
    ∧ (s.update dt).mParticles
        = ((preStore s dt).filter (fun p =>
            decide ((updateParticle p dt).passedLifetime < (updateParticle p dt).totalLifetime))).map
            (fun p => applyAffectors (liveAffectors s dt) (updateParticle p dt) dt)
    ∧ ∀ (p : Particle),
        applyAffectors (liveAffectors s dt) p dt
          = applyAffectors (assignIds s.nextId (affectorSpecsBy s.mEmitters dt))
              (applyAffectors s.mAffectors p dt) dt := by
  refine ⟨rfl, ?_, ?_⟩
  · rw [update_eq]
    simp only [particleLoop_eq_filter_map]
  · intro p
    simp [liveAffectors, applyAffectors, List.foldl_append]

/-!
Claim C7.
-/

/-- Claim C7: the post-update store is the stable filter of the
pass-start store — the survivors (those alive after integration), each
integrated and affected, in exactly their pre-update relative order,
with no gaps; the post-update size equals the number of survivors. -/
theorem thorC7_stable_compaction (s : ParticleSystem) (dt : ℚ) :
    (s.update dt).mParticles
      = ((preStore s dt).filter (fun p =>
          decide ((updateParticle p dt).passedLifetime < (updateParticle p dt).totalLifetime))).map
          (fun p => applyAffectors (liveAffectors s dt) (updateParticle p dt) dt)
    ∧ (s.update dt).mParticles.length
        = (preStore s dt).countP (fun p =>
            decide ((updateParticle p dt).passedLifetime < (updateParticle p dt).totalLifetime)) := by
  have h : (s.update dt).mParticles
      = ((preStore s dt).filter (fun p =>
          decide ((updateParticle p dt).passedLifetime < (updateParticle p dt).totalLifetime))).map
          (fun p => applyAffectors (liveAffectors s dt) (updateParticle p dt) dt) := by
    rw [update_eq]
    simp only [particleLoop_eq_filter_map]
  refine ⟨h, ?_⟩
  rw [h, List.length_map, List.countP_eq_length_filter]

/-!
Claim C9.
-/

/-- Claim C9: drawing twice with no intervening mutation hands the
renderer identical input both times, the second draw never rebuilds the
mesh, and draw leaves the particle store, both registries, the id
counter, and the texture configuration untouched. -/
theorem thorC9_draw_idempotent_and_pure (s : ParticleSystem) (trig : ℚ → ℚ × ℚ) :
    ((s.draw trig).state.draw trig).drawnVertices = (s.draw trig).drawnVertices
    ∧ ((s.draw trig).state.draw trig).drawnTexture = (s.draw trig).drawnTexture
    ∧ ((s.draw trig).state.draw trig).rebuilt = false
    ∧ (s.draw trig).state.mParticles = s.mParticles
    ∧ (s.draw trig).state.mAffectors = s.mAffectors
    ∧ (s.draw trig).state.mEmitters = s.mEmitters
    ∧ (s.draw trig).state.nextId = s.nextId
    ∧ (s.draw trig).state.mTexture = s.mTexture
    ∧ (s.draw trig).state.mTextureRect = s.mTextureRect := by
  cases h : s.mNeedsVertexUpdate <;>
    simp [ParticleSystem.draw, h, computeVertices]

/-!
Claim C3.
-/

/-- Claim C3: the particle pass applies affector callbacks to a
particle only when, after that update's integration,
`passedLifetime < totalLifetime`; every particle that fails this check
is dropped by that same update's compaction (so the post-update store
never holds, and no affector ever observes, a particle that aged out
naturally). -/
theorem thorC3_dead_removed_before_affectors (s : ParticleSystem) (dt : ℚ) :
    (s.update dt).mParticles
      = (preStore s dt).filterMap (processParticle (liveAffectors s dt) dt)
    ∧ (∀ p ∈ (s.update dt).mParticles, ∃ p0 ∈ preStore s dt,
        (updateParticle p0 dt).passedLifetime < (updateParticle p0 dt).totalLifetime
        ∧ p = applyAffectors (liveAffectors s dt) (updateParticle p0 dt) dt)
    ∧ (∀ p0 : Particle,
        (updateParticle p0 dt).totalLifetime ≤ (updateParticle p0 dt).passedLifetime →
        processParticle (liveAffectors s dt) dt p0 = none) := by
  have h : (s.update dt).mParticles
      = (preStore s dt).filterMap (processParticle (liveAffectors s dt) dt) := by
    rw [update_eq]
    simp only [particleLoop_eq_filterMap]
  refine ⟨h, ?_, ?_⟩
  · intro p hp
    rw [h] at hp
    rcases List.mem_filterMap.mp hp with ⟨p0, hp0, hf⟩
    refine ⟨p0, hp0, ?_⟩
    by_cases hc : (updateParticle p0 dt).passedLifetime < (updateParticle p0 dt).totalLifetime
    · refine ⟨hc, ?_⟩
      simp only [processParticle, if_pos hc, Option.some.injEq] at hf
      exact hf.symm
    · simp only [processParticle, if_neg hc] at hf
      cases hf
  · intro p0 hdead
    have hc : ¬ (updateParticle p0 dt).passedLifetime < (updateParticle p0 dt).totalLifetime :=
      not_lt.mpr hdead
    simp only [processParticle, if_neg hc]

/-- Witness for C3 at a concrete input: `updateParticle P0 1` is in the
store after `S0.update 1`, and the theorem produces its pre-pass origin
that was alive at the culling check. -/
theorem thorC3_witness :
    updateParticle P0 1 ∈ (S0.update 1).mParticles
    ∧ ∃ p0 ∈ preStore S0 1,
        (updateParticle p0 1).passedLifetime < (updateParticle p0 1).totalLifetime
        ∧ updateParticle P0 1 = applyAffectors (liveAffectors S0 1) (updateParticle p0 1) 1 :=
  ⟨by
      norm_num [update_eq, liveAffectors, preStore, emittedBy, affectorSpecsBy, S0, E0,
        mkParticleSystem, ParticleSystem.addEmitter, particleOfCmd, affectorSpecOfCmd,
        assignIds, particleLoop, applyAffectors, updateParticle, P0],
   (thorC3_dead_removed_before_affectors S0 1).2.1 (updateParticle P0 1)
     (by
      norm_num [update_eq, liveAffectors, preStore, emittedBy, affectorSpecsBy, S0, E0,
        mkParticleSystem, ParticleSystem.addEmitter, particleOfCmd, affectorSpecOfCmd,
        assignIds, particleLoop, applyAffectors, updateParticle, P0])⟩

/-!
Claim C4.
-/

/-- The system of C4's failing input after one draw call: one particle,
vertex cache freshly built and marked clean. -/
def S4a : ParticleSystem := (mkParticleSystem ⟨2, 2⟩).addParticle P0

/-- C4's failing input continued: `clearParticles` after a clean draw. -/
def S4b : ParticleSystem := ((S4a.draw trig0).state).clearParticles

/-- Claim C4 evaluated at the failing input: `clearParticles` mutates
particle state but does NOT mark the mesh cache invalid — after
clearing, the store is empty and the current-state geometry would be
empty, yet the dirty flag is still `false`, so the next draw skips the
rebuild and hands the renderer the four stale cached vertices of the
deleted particle. -/
theorem thorC4_clearParticles_leaves_stale_cache :
    S4b.mParticles = []
    ∧ S4b.mNeedsVertexUpdate = false
    ∧ computeVertices trig0 S4b = []
    ∧ (S4b.draw trig0).rebuilt = false
    ∧ (S4b.draw trig0).drawnVertices = (S4a.draw trig0).drawnVertices
    ∧ (S4b.draw trig0).drawnVertices.length = 4 := by
  norm_num [S4b, S4a, ParticleSystem.clearParticles, ParticleSystem.draw,
    ParticleSystem.addParticle, mkParticleSystem, computeVertices, trig0, P0]

/-!
Claim C5.
-/

/-- Stated from the claim's words, for comparison with the source's
`computeVertices` (C5): each base-quad corner is rotated by the
particle's rotation FIRST, then scaled by the particle's scale, then
translated by the particle's position. -/
def computeVerticesClaimOrder (trig : ℚ → ℚ × ℚ) (s : ParticleSystem) : List Vertex :=
  let halfSize : Vec2 := ⟨(s.mTexture.width : ℚ) / 2, (s.mTexture.height : ℚ) / 2⟩
  let positionOffsets : List Vec2 :=
    [Vec2.neg halfSize,
     perpendicularVector halfSize,
     halfSize,
     Vec2.neg (perpendicularVector halfSize)]
  let left : ℚ := (s.mTextureRect.left : ℚ)
  let right : ℚ := ((s.mTextureRect.left + s.mTextureRect.width : ℤ) : ℚ)
  let top : ℚ := (s.mTextureRect.top : ℚ)
  let bottom : ℚ := ((s.mTextureRect.top + s.mTextureRect.height : ℤ) : ℚ)
  let texCoords : List Vec2 :=
    [⟨left, top⟩, ⟨right, top⟩, ⟨right, bottom⟩, ⟨left, bottom⟩]
  (s.mParticles.map (fun p =>
    (positionOffsets.zip texCoords).map
      (fun oc =>
        ⟨Vec2.add (scalePoint p.scale (rotatePoint (trig p.rotation) oc.1)) p.position,
         p.color, oc.2⟩))).flatten

/-- A particle rotated by 90° with non-uniform scale `(2,1)`, on which
the two transform orders disagree. -/
def P5 : Particle := { P0 with rotation := 90, scale := ⟨2, 1⟩ }

/-- A system holding just `P5`, with a 2×2 texture. -/
def S5 : ParticleSystem := (mkParticleSystem ⟨2, 2⟩).addParticle P5

/-- Claim C5, refuted at a concrete input: with rotation 90° and
non-uniform scale `(2,1)` the source's vertex positions (scale, then
rotate, then translate) differ from the claim's stated order (rotate,
then scale, then translate). -/
theorem thorC5_counterexample :
    computeVertices trig90 S5 ≠ computeVerticesClaimOrder trig90 S5
    ∧ (computeVertices trig90 S5).map (fun v => v.position)
        = [⟨1, -2⟩, ⟨-1, -2⟩, ⟨-1, 2⟩, ⟨1, 2⟩]
    ∧ (computeVerticesClaimOrder trig90 S5).map (fun v => v.position)
        = [⟨2, -1⟩, ⟨-2, -1⟩, ⟨-2, 1⟩, ⟨2, 1⟩] := by
  norm_num [computeVertices, computeVerticesClaimOrder, S5, P5, P0, trig90,
    mkParticleSystem, ParticleSystem.addParticle, idTransform, SfTransform.translate,
    SfTransform.rotate, SfTransform.scale, SfTransform.transformPoint, rotatePoint,
    scalePoint, perpendicularVector, Vec2.add, Vec2.neg]

/-- Length of a flattened map whose blocks all have four elements. -/
theorem flatten_map_four {α : Type} (l : List α) (f : α → List Vertex)
    (h : ∀ x, (f x).length = 4) : ((l.map f).flatten).length = 4 * l.length := by
  induction l with
  | nil => simp
  | cons x l ih =>
      simp only [List.map_cons, List.flatten_cons, List.length_append, ih, h,
        List.length_cons]
      ring

/-- Claim C5 as amended: on rebuild, exactly four vertices are emitted
per particle in store order; each position is the fixed base-quad
corner SCALED by the particle's scale first, then rotated by the
particle's rotation, then translated by the particle's position; the
four texture coordinates are the fixed corners of the configured source
rectangle, identical for all particles, and every vertex carries the
particle's color. -/
theorem thorC5_vertex_pipeline (trig : ℚ → ℚ × ℚ) (s : ParticleSystem) :
    computeVertices trig s
      = (s.mParticles.map (fun p =>
          (([Vec2.neg ⟨(s.mTexture.width : ℚ) / 2, (s.mTexture.height : ℚ) / 2⟩,
             perpendicularVector ⟨(s.mTexture.width : ℚ) / 2, (s.mTexture.height : ℚ) / 2⟩,
             (⟨(s.mTexture.width : ℚ) / 2, (s.mTexture.height : ℚ) / 2⟩ : Vec2),
             Vec2.neg (perpendicularVector ⟨(s.mTexture.width : ℚ) / 2, (s.mTexture.height : ℚ) / 2⟩)].zip
            [(⟨(s.mTextureRect.left : ℚ), (s.mTextureRect.top : ℚ)⟩ : Vec2),
             ⟨((s.mTextureRect.left + s.mTextureRect.width : ℤ) : ℚ), (s.mTextureRect.top : ℚ)⟩,
             ⟨((s.mTextureRect.left + s.mTextureRect.width : ℤ) : ℚ),
              ((s.mTextureRect.top + s.mTextureRect.height : ℤ) : ℚ)⟩,
             ⟨(s.mTextureRect.left : ℚ), ((s.mTextureRect.top + s.mTextureRect.height : ℤ) : ℚ)⟩]).map
            (fun oc =>
              ⟨Vec2.add (rotatePoint (trig p.rotation) (scalePoint p.scale oc.1)) p.position,
               p.color, oc.2⟩)))).flatten
    ∧ (computeVertices trig s).length = 4 * s.mParticles.length := by
  constructor
  · rfl
  · apply flatten_map_four
    intro p
    rfl

/-!
Claim C6.
-/

/-- Claim C6: registry entry lifecycle across a sequence of updates
with non-negative elapsed times.  (1) The emitter registry after the
updates is exactly the per-entry evolution of its initial entries: a
tracked emitter's slot holds `(entryIter e dts).toList`, so when the
entry expires the registry consists of the evolved other entries only.
(2) A tracked affector evolves the same way after the evolved entries
before it (later registrations are appended after).  (3)/(4) Once the
cumulative elapsed time makes `entryIter` erase a tracked emitter or
affector, no entry bearing its id remains in its registry after the
updates (given well-formed ids, which hold in every API-reachable
state).  (5) An entry with the zero-duration sentinel survives every
update unchanged.  (6) An entry with finite duration `T > 0` is erased
exactly when the cumulative elapsed time reaches `T`, and otherwise
survives with remaining time `T` minus the elapsed sum.  (7) In every
single update the emission pass invokes every emitter present at the
start of that update — including one that expires during it, since
expiry is checked only after the callback runs. -/
theorem thorC6_registration_lifecycle (s : ParticleSystem) (dts : List ℚ)
    (hdts : ∀ d ∈ dts, 0 ≤ d) :
    (∀ pre post (e : Emitter), s.mEmitters = pre ++ [e] ++ post →
      (updates s dts).mEmitters
        = registryIter pre dts ++ (entryIter e dts).toList ++ registryIter post dts)
    ∧ (∀ pre post (a : Affector), s.mAffectors = pre ++ [a] ++ post →
      ∃ B, (updates s dts).mAffectors
        = registryIter pre dts ++ (entryIter a dts).toList ++ B)
    ∧ (idsWellFormed s → ∀ pre post (e : Emitter), s.mEmitters = pre ++ [e] ++ post →
        entryIter e dts = none → ∀ b ∈ (updates s dts).mEmitters, b.id ≠ e.id)
    ∧ (idsWellFormed s → ∀ pre post (a : Affector), s.mAffectors = pre ++ [a] ++ post →
        entryIter a dts = none → ∀ b ∈ (updates s dts).mAffectors, b.id ≠ a.id)
    ∧ (∀ (F : Type) (e : Entry F), e.timeUntilRemoval = 0 → entryIter e dts = some e)
    ∧ (∀ (F : Type) (fn : F) (i : ℕ) (T : ℚ), 0 < T →
        (T ≤ dts.sum → entryIter (Entry.mk fn T i) dts = none)
        ∧ (dts.sum < T → entryIter (Entry.mk fn T i) dts = some (Entry.mk fn (T - dts.sum) i)))
    ∧ (∀ dt : ℚ, (emissionPass s dt).mParticles = s.mParticles ++ emittedBy s.mEmitters dt) := by
  refine ⟨?_, ?_, ?_, ?_, ?_, ?_, ?_⟩
  · intro pre post e hs
    rw [updates_mEmitters_eq dts s, hs, registryIter_append, registryIter_append,
      registryIter_singleton]
  · intro pre post a hs
    exact updates_mAffectors_tracked dts s pre post a hs
  · intro hwf pre post e hs hn
    exact updates_emitter_expired_absent dts s pre post e hwf hs hn
  · intro hwf pre post a hs hn
    exact updates_affector_expired_absent dts s pre post a hwf hs hn
  · intro F e he
    exact entryIter_zero e dts he
  · intro F fn i T hT
    rw [entryIter_pos fn i T dts hT hdts]
    constructor
    · intro hle
      rw [if_pos hle]
    · intro hlt
      rw [if_neg (not_le.mpr hlt)]
  · intro dt
    rw [emissionPass_eq]

/-- A system with a single emitter of finite duration `1`. -/
def S6 : ParticleSystem := ((mkParticleSystem ⟨2, 2⟩).addEmitter E0 1).1

/-- Witness for C6 at a concrete input (the spec's scenario: duration
1.0s, one update of 1.5s): the elapsed times are non-negative, `S6` has
well-formed ids, its emitter registry splits around the tracked entry,
`entryIter` erases that entry since `1 ≤ 3/2`, the registry after the
update is exactly the evolution of the (empty) surroundings — the empty
list — and no entry with the emitter's id remains. -/
theorem thorC6_witness :
    (∀ d ∈ [(3 : ℚ)/2], 0 ≤ d)
    ∧ idsWellFormed S6
    ∧ S6.mEmitters = [] ++ [Entry.mk E0 1 0] ++ []
    ∧ entryIter (Entry.mk E0 (1 : ℚ) 0) [(3 : ℚ)/2] = none
    ∧ (updates S6 [(3 : ℚ)/2]).mEmitters
        = registryIter [] [(3 : ℚ)/2] ++ (entryIter (Entry.mk E0 (1 : ℚ) 0) [(3 : ℚ)/2]).toList
          ++ registryIter [] [(3 : ℚ)/2]
    ∧ (updates S6 [(3 : ℚ)/2]).mEmitters = []
    ∧ (∀ b ∈ (updates S6 [(3 : ℚ)/2]).mEmitters, b.id ≠ 0) := by
  have hwf : idsWellFormed S6 := by
    norm_num [idsWellFormed, S6, mkParticleSystem, ParticleSystem.addEmitter]
  have hnone : entryIter (Entry.mk E0 (1 : ℚ) 0) [(3 : ℚ)/2] = none :=
    ((thorC6_registration_lifecycle S6 [(3 : ℚ)/2] (by norm_num)).2.2.2.2.2.1
      EmitterFun E0 0 1 (by norm_num)).1
      (by norm_num [List.sum_cons, List.sum_nil])
  have hdecomp : (updates S6 [(3 : ℚ)/2]).mEmitters
      = registryIter [] [(3 : ℚ)/2] ++ (entryIter (Entry.mk E0 (1 : ℚ) 0) [(3 : ℚ)/2]).toList
        ++ registryIter [] [(3 : ℚ)/2] :=
    (thorC6_registration_lifecycle S6 [(3 : ℚ)/2] (by norm_num)).1 [] [] (Entry.mk E0 1 0) rfl
  refine ⟨by norm_num, hwf, rfl, hnone, hdecomp, ?_, ?_⟩
  · rw [hdecomp, hnone, registryIter_nil]
    rfl
  · exact (thorC6_registration_lifecycle S6 [(3 : ℚ)/2] (by norm_num)).2.2.1 hwf
      [] [] (Entry.mk E0 1 0) rfl hnone

/-!
Claim C8.
-/

/-- Removing by id erases exactly the first matching entry, leaving the
entries around it in order. -/
theorem removeById_found {F : Type} (i : ℕ) (pre post : List (Entry F)) (a : Entry F)
    (ha : a.id = i) (hpre : ∀ b ∈ pre, b.id ≠ i) :
    removeById (pre ++ [a] ++ post) i = pre ++ post := by
  induction pre with
  | nil => simp [removeById, ha]
  | cons b pre ih =>
      have hb : b.id ≠ i := hpre b (List.mem_cons_self b pre)
      simp only [List.cons_append, removeById, if_neg hb]
      exact congrArg (fun l => b :: l) (ih (fun c hc => hpre c (List.mem_cons_of_mem b hc)))

/-- Removing an id with no matching entry is the identity. -/
theorem removeById_absent {F : Type} (i : ℕ) (l : List (Entry F))
    (h : ∀ b ∈ l, b.id ≠ i) : removeById l i = l := by
  induction l with
  | nil => rfl
  | cons b l ih =>
      have hb : b.id ≠ i := h b (List.mem_cons_self b l)
      simp only [removeById, if_neg hb]
      rw [ih (fun c hc => h c (List.mem_cons_of_mem b hc))]

/-- Claim C8: disconnecting a handle removes exactly the one entry with
the handle's stored id — whatever insertions or removals produced the
surrounding registry — shrinking the registry by one; disconnecting
when no entry carries that id (already expired, cleared, or already
disconnected) is a no-op on the whole system state, and in particular a
second disconnect of the same handle has no further effect.  Stated for
both the affector and the emitter registry. -/
theorem thorC8_disconnect_by_identity (s : ParticleSystem) (i : ℕ) :
    (∀ pre post (a : Affector), s.mAffectors = pre ++ [a] ++ post → a.id = i →
      (∀ b ∈ pre, b.id ≠ i) →
      (s.disconnectAffector i).mAffectors = pre ++ post
      ∧ (s.disconnectAffector i).mAffectors.length + 1 = s.mAffectors.length)
    ∧ ((∀ b ∈ s.mAffectors, b.id ≠ i) → s.disconnectAffector i = s)
    ∧ (∀ pre post (a : Affector), s.mAffectors = pre ++ [a] ++ post → a.id = i →
      (∀ b ∈ pre ++ post, b.id ≠ i) →
      (s.disconnectAffector i).disconnectAffector i = s.disconnectAffector i)
    ∧ (∀ pre post (e : Emitter), s.mEmitters = pre ++ [e] ++ post → e.id = i →
      (∀ b ∈ pre, b.id ≠ i) →
      (s.disconnectEmitter i).mEmitters = pre ++ post
      ∧ (s.disconnectEmitter i).mEmitters.length + 1 = s.mEmitters.length)
    ∧ ((∀ b ∈ s.mEmitters, b.id ≠ i) → s.disconnectEmitter i = s) := by
  refine ⟨?_, ?_, ?_, ?_, ?_⟩
  · intro pre post a hs ha hpre
    have h : (s.disconnectAffector i).mAffectors = pre ++ post := by
      simp only [ParticleSystem.disconnectAffector, hs]
      exact removeById_found i pre post a ha hpre
    refine ⟨h, ?_⟩
    rw [h, hs]
    simp only [List.length_append, List.length_cons, List.length_nil]
    omega
  · intro h
    simp only [ParticleSystem.disconnectAffector, removeById_absent i s.mAffectors h]
  · intro pre post a hs ha hrest
    have h2 : removeById s.mAffectors i = pre ++ post := by
      rw [hs]
      exact removeById_found i pre post a ha (fun b hb => hrest b (List.mem_append_left post hb))
    simp only [ParticleSystem.disconnectAffector, h2, removeById_absent i (pre ++ post) hrest]
  · intro pre post e hs he hpre
    have h : (s.disconnectEmitter i).mEmitters = pre ++ post := by
      simp only [ParticleSystem.disconnectEmitter, hs]
      exact removeById_found i pre post e he hpre
    refine ⟨h, ?_⟩
    rw [h, hs]
    simp only [List.length_append, List.length_cons, List.length_nil]
    omega
  · intro h
    simp only [ParticleSystem.disconnectEmitter, removeById_absent i s.mEmitters h]

/-- A do-nothing affector callback. -/
def idAff : AffectorFun := fun p _ => p

/-- A registry with two affectors (ids 0 and 1), built through the
public API so ids come from the modelled counter. -/
def S8 : ParticleSystem :=
  (((mkParticleSystem ⟨2, 2⟩).addAffector idAff 0).1.addAffector idAff 0).1

/-- Witness for C8 at a concrete input: disconnecting id 1 from `S8`
removes exactly the second entry, leaving the first. -/
theorem thorC8_witness :
    S8.mAffectors = [Entry.mk idAff 0 0] ++ [Entry.mk idAff 0 1] ++ []
    ∧ (Entry.mk idAff (0 : ℚ) 1).id = 1
    ∧ (∀ b ∈ [Entry.mk idAff (0 : ℚ) 0], b.id ≠ 1)
    ∧ (S8.disconnectAffector 1).mAffectors = [Entry.mk idAff 0 0] ++ []
    ∧ (S8.disconnectAffector 1).mAffectors.length + 1 = S8.mAffectors.length :=
  ⟨rfl, rfl, by simp,
   ((thorC8_disconnect_by_identity S8 1).1 [Entry.mk idAff 0 0] [] (Entry.mk idAff 0 1)
      rfl rfl (by simp)).1,
   ((thorC8_disconnect_by_identity S8 1).1 [Entry.mk idAff 0 0] [] (Entry.mk idAff 0 1)
      rfl rfl (by simp)).2⟩

/-!
Claim C10.
-/

/-- Claim C10: the retain/discard decision for a particle is made from
its lifetime fields right after integration and before any affector
callback runs; a particle whose affector chain leaves it with
`passedLifetime ≥ totalLifetime` is nevertheless retained through this
update's compaction, and the per-particle pipeline of any later update
with non-negative elapsed time discards it without applying any
affector (its integrated `passedLifetime` can only grow). -/
theorem thorC10_cull_check_precedes_affectors (s : ParticleSystem) (dt : ℚ) (p0 : Particle)
    (hmem : p0 ∈ preStore s dt)
    (halive : (updateParticle p0 dt).passedLifetime < (updateParticle p0 dt).totalLifetime) :
    applyAffectors (liveAffectors s dt) (updateParticle p0 dt) dt ∈ (s.update dt).mParticles
    ∧ (∀ (affs2 : List Affector) (dt2 : ℚ), 0 ≤ dt2 →
        (applyAffectors (liveAffectors s dt) (updateParticle p0 dt) dt).totalLifetime
          ≤ (applyAffectors (liveAffectors s dt) (updateParticle p0 dt) dt).passedLifetime →
        processParticle affs2 dt2
          (applyAffectors (liveAffectors s dt) (updateParticle p0 dt) dt) = none) := by
  constructor
  · have h : (s.update dt).mParticles
        = ((preStore s dt).filter (fun p =>
            decide ((updateParticle p dt).passedLifetime < (updateParticle p dt).totalLifetime))).map
            (fun p => applyAffectors (liveAffectors s dt) (updateParticle p dt) dt) := by
      rw [update_eq]
      simp only [particleLoop_eq_filter_map]
    rw [h]
    exact List.mem_map_of_mem _ (List.mem_filter.mpr ⟨hmem, by simpa using halive⟩)
  · intro affs2 dt2 h2 hdead
    set q := applyAffectors (liveAffectors s dt) (updateParticle p0 dt) dt with hq
    have hc : ¬ (updateParticle q dt2).passedLifetime < (updateParticle q dt2).totalLifetime := by
      simp only [updateParticle, not_lt]
      linarith
    simp only [processParticle, if_neg hc]

/-- An affector callback that forces a particle dead by setting its
elapsed lifetime to 99. -/
def killAff : AffectorFun := fun p _ => { p with passedLifetime := 99 }

/-- A system with one particle and one `killAff` affector. -/
def S10 : ParticleSystem :=
  (((mkParticleSystem ⟨2, 2⟩).addAffector killAff 0).1).addParticle P0

/-- Witness for C10 at a concrete input: `P0` is in the pass-start
store of `S10.update 1` and alive after integration, so the theorem
applies: the killed particle is retained this update and discarded
without affectors next update. -/
theorem thorC10_witness :
    P0 ∈ preStore S10 1
    ∧ (updateParticle P0 1).passedLifetime < (updateParticle P0 1).totalLifetime
    ∧ (applyAffectors (liveAffectors S10 1) (updateParticle P0 1) 1 ∈ (S10.update 1).mParticles
      ∧ (∀ (affs2 : List Affector) (dt2 : ℚ), 0 ≤ dt2 →
          (applyAffectors (liveAffectors S10 1) (updateParticle P0 1) 1).totalLifetime
            ≤ (applyAffectors (liveAffectors S10 1) (updateParticle P0 1) 1).passedLifetime →
          processParticle affs2 dt2
            (applyAffectors (liveAffectors S10 1) (updateParticle P0 1) 1) = none)) :=
  ⟨by norm_num [preStore, emittedBy, S10, mkParticleSystem, ParticleSystem.addAffector,
      ParticleSystem.addParticle],
   by norm_num [updateParticle, P0],
   thorC10_cull_check_precedes_affectors S10 1 P0
     (by norm_num [preStore, emittedBy, S10, mkParticleSystem, ParticleSystem.addAffector,
        ParticleSystem.addParticle])
     (by norm_num [updateParticle, P0])⟩
